import Mathlib

/-!
Verification development for the fast-slides asset-resolution and
live-preview subsystem.

The program is a TypeScript desktop application; the definitions below are a
shallow embedding of its pure helpers (`normalizeProjectRelativeAsset`,
`isExternalAssetPath`, `splitAssetPathAndSuffix`, `tokensToCss`,
`parseCssToTokens`, `SlideTocRail`, `slideTocEntries`) and an explicit-state
rendering of its stateful parts (the process-wide asset data-URL cache of
`resolveProjectAssetSource`, the cancelled-flag compile effect of
`EmbeddedDeckPreview`, and the active-slide-index state machine of `Home`).

Strings are modelled as Lean `String`s; the character-level scanning the
JavaScript code performs (trim, prefix tests, `split("/")`, the
design-token regex) is carried out on `String.data`, the underlying
`List Char`.  JavaScript's `\s` / `.trim()` whitespace class is modelled by
its ASCII subset, and `String.prototype.toLowerCase` by the ASCII
`Char.toLower`; the inputs the claims quantify over are unaffected by the
non-ASCII remainder of those classes.
-/

namespace FastSlides

/-- ASCII subset of JavaScript's whitespace class (`\s`, `String.trim`). -/
def jsWs (c : Char) : Bool :=
  c = ' ' || c = '\t' || c = '\n' || c = '\r' || c = '\x0b' || c = '\x0c'

/-- `String.prototype.trim`: drop whitespace from both ends. -/
def jsTrim (s : List Char) : List Char :=
  ((s.dropWhile jsWs).reverse.dropWhile jsWs).reverse

/-- `a.startsWith(p)` on character lists. -/
def charsPrefix : List Char → List Char → Bool
  | [], _ => true
  | _ :: _, [] => false
  | p :: ps, c :: cs => p = c && charsPrefix ps cs

/-- `value.toLowerCase()` (ASCII model). -/
def toLowerList (s : List Char) : List Char := s.map Char.toLower

/-- Source: `isExternalAssetPath` — scheme-prefixed or protocol-relative
references that must never reach the resolver. -/
def isExternalAssetPath (value : List Char) : Bool :=
  let lower := toLowerList value
  charsPrefix "//".data value ||
  charsPrefix "http://".data lower ||
  charsPrefix "https://".data lower ||
  charsPrefix "data:".data lower ||
  charsPrefix "blob:".data lower ||
  charsPrefix "mailto:".data lower ||
  charsPrefix "tel:".data lower

/-- A character the regex `.` matches (anything but a line terminator:
`\n`, `\r`, U+2028, U+2029). -/
def isRegexDot (c : Char) : Bool :=
  !(c = '\n' || c = '\r' || c = ' ' || c = ' ')

/-- A character the regex class `[^?#]` keeps: anything (line terminators
included) but `?` and `#`. -/
def keepPathChar (c : Char) : Bool := !(c = '?' || c = '#')

/-- Source: `splitAssetPathAndSuffix` — the `pathOnly` component.
`raw.match(/^([^?#]*)(.*)$/)` captures the longest `?`/`#`-free prefix in
group 1 and the query/fragment suffix in group 2; but `(.*)` cannot cross a
line terminator while `$` (no `m` flag) matches only at the end of input,
so when the suffix contains a line terminator the whole match fails and
`match?.[1] ?? raw` falls back to the entire raw string. -/
def pathOnlyOf (s : List Char) : List Char :=
  if (s.dropWhile keepPathChar).all isRegexDot then s.takeWhile keepPathChar
  else s

/-- `raw.replace(/\\/g, "/")` on a single character. -/
def bsToSlash (c : Char) : Char := if c = '\\' then '/' else c

/-- `raw.replace(/\\/g, "/")`. -/
def toSlashes (s : List Char) : List Char := s.map bsToSlash

/-- Source: `PROJECT_ROOT_ABSOLUTE_ASSET_PREFIXES`. -/
def PROJECT_ROOT_ABSOLUTE_ASSET_PREFIXES : List String :=
  ["/assets/", "/images/", "/media/", "/data/"]

/-- Source: the `supportedRootRelative` test inside
`normalizeProjectRelativeAsset`: the absolute path equals one of the fixed
prefixes minus its trailing slash, or starts with the full prefix. -/
def supportedRootRelative (relative : List Char) : Bool :=
  PROJECT_ROOT_ABSOLUTE_ASSET_PREFIXES.any fun prefixStr =>
    relative = prefixStr.data.dropLast || charsPrefix prefixStr.data relative

/-- `"".split("/")`-style splitting: JavaScript semantics, so the result is
always nonempty and empty segments are kept. -/
def splitOnSlash : List Char → List (List Char)
  | [] => [[]]
  | c :: rest =>
    if c = '/' then [] :: splitOnSlash rest
    else
      match splitOnSlash rest with
      | seg :: segs => (c :: seg) :: segs
      | [] => [[c]]

/-- The `for (const part of relative.split("/"))` loop of
`normalizeProjectRelativeAsset`: skip empty and `.` segments, pop on `..`
(rejecting the whole input when nothing is left to pop), keep the rest. -/
def normalizeSegments : List (List Char) → List (List Char) → Option (List (List Char))
  | acc, [] => some acc
  | acc, part :: rest =>
    if part = [] ∨ part = ['.'] then normalizeSegments acc rest
    else if part = ['.', '.'] then
      if acc = [] then none else normalizeSegments acc.dropLast rest
    else normalizeSegments (acc ++ [part]) rest

/-- `normalizedParts.join("/")`. -/
def joinSlash : List (List Char) → List Char
  | [] => []
  | [seg] => seg
  | seg :: rest => seg ++ '/' :: joinSlash rest

/-- The code's `relative` value as computed from the trimmed input: query and
fragment dropped, backslashes normalized to forward slashes. -/
def bodyOfTrimmed (trimmed : List Char) : List Char := toSlashes (pathOnlyOf trimmed)

/-- The tail of `normalizeProjectRelativeAsset` once the (possibly rewritten)
relative path is fixed: split on `/`, normalize segments, reject an empty
result, rejoin with `/`. -/
def finishSegments (relative : List Char) : Option String :=
  match normalizeSegments [] (splitOnSlash relative) with
  | none => none
  | some [] => none
  | some parts => some (String.mk (joinSlash parts))

/-- Source: `normalizeProjectRelativeAsset` — the Path Sanitizer. -/
def normalizeProjectRelativeAsset (raw : String) : Option String :=
  let trimmed := jsTrim raw.data
  if trimmed = [] then none
  else if charsPrefix ['#'] trimmed then none
  else if isExternalAssetPath trimmed then none
  else if pathOnlyOf trimmed = [] then none
  else
    let relative := bodyOfTrimmed trimmed
    if charsPrefix ['/'] relative then
      if supportedRootRelative relative then finishSegments (relative.drop 1)
      else none
    else finishSegments relative

/-- The code's `relative` value for a raw reference, before the
absolute-path branch. -/
def assetPathBody (raw : String) : List Char := bodyOfTrimmed (jsTrim raw.data)

/-! ## Asset Resolver (`resolveProjectAssetSource`, `ProjectAssetImage`)

The process-wide `projectAssetDataUrlCache` and the backend call
`call("resolve_project_asset_data_url", ...)` are modelled with explicit
state passing: the cache is an association list (insertion shadows, like
`Map.set`), `reads` counts backend invocations, the Tauri-runtime check is a
boolean parameter, and the fallible backend is a
`String → String → Except String String` parameter.  A rejected promise is
an `Except.error` result. -/

structure AssetCacheState where
  cache : List (String × String)
  reads : Nat
  deriving DecidableEq

/-- `projectAssetDataUrlCache.get` (newest entry wins, like `Map.set`). -/
def lookupCache (key : String) : List (String × String) → Option String
  | [] => none
  | (k, v) :: rest => if k = key then some v else lookupCache key rest

/-- Source: `resolveProjectAssetSource`.  Note the JavaScript truthiness
tests: `!normalizedRelative` and `!projectPath` are empty-string tests, and
`if (cached)` treats an empty cached string as a miss. -/
def resolveProjectAssetSource (tauri : Bool)
    (backend : String → String → Except String String)
    (projectPath rawSrc : String) (st : AssetCacheState) :
    Except String String × AssetCacheState :=
  match normalizeProjectRelativeAsset rawSrc with
  | none => (Except.ok rawSrc, st)
  | some normalizedRelative =>
    if normalizedRelative = "" || projectPath = "" || !tauri then
      (Except.ok rawSrc, st)
    else
      let cacheKey := projectPath ++ "::" ++ normalizedRelative
      let load :=
        match backend projectPath rawSrc with
        | Except.ok nextSource =>
          (Except.ok nextSource,
            AssetCacheState.mk ((cacheKey, nextSource) :: st.cache) (st.reads + 1))
        | Except.error e => (Except.error e, AssetCacheState.mk st.cache (st.reads + 1))
      match lookupCache cacheKey st.cache with
      | some cached => if cached = "" then load else (Except.ok cached, st)
      | none => load

/-- Source: the `resolveProjectAssetSource(...).then(...).catch(...)` effect
of `ProjectAssetImage`: a successful resolution is displayed, a rejected one
falls back to the original `src` string. -/
def projectAssetImageResolvedSrc (tauri : Bool)
    (backend : String → String → Except String String)
    (projectPath rawSrc : String) (st : AssetCacheState) :
    String × AssetCacheState :=
  match resolveProjectAssetSource tauri backend projectPath rawSrc st with
  | (Except.ok v, st') => (v, st')
  | (Except.error _, st') => (rawSrc, st')

end FastSlides

namespace FastSlides

/-- C1: every raw reference whose segment normalization reaches a `..` with
no retained segment left to pop is rejected outright (the loop returns
`null` the moment `part === ".."` finds an empty `normalizedParts`), and in
particular `sanitize("../../etc/passwd")` and
`sanitize("images/../../secret")` are both `null`. -/
theorem c1_traversal_rejected :
    (∀ rest : List (List Char), normalizeSegments [] (['.', '.'] :: rest) = none) ∧
    normalizeProjectRelativeAsset "../../etc/passwd" = none ∧
    normalizeProjectRelativeAsset "images/../../secret" = none :=
  ⟨fun _ => rfl, by decide, by decide⟩

/-- Witness for C1 at the concrete loop state `".." :: ["etc"]` with an
empty retained stack. -/
theorem c1_traversal_rejected_witness :
    normalizeSegments [] (['.', '.'] :: [['e', 't', 'c']]) = none :=
  c1_traversal_rejected.1 [['e', 't', 'c']]

/-- Auxiliary: trimming an all-whitespace string yields the empty list. -/
theorem jsTrim_eq_nil_of_all_ws {l : List Char} (h : ∀ c ∈ l, jsWs c = true) :
    jsTrim l = [] := by
  unfold jsTrim
  rw [List.dropWhile_eq_nil_iff.mpr h]
  simp

/-- C2: the sanitizer rejects empty/whitespace-only input, fragment-only
input, and scheme-prefixed or protocol-relative input; whenever the
sanitizer rejects, the Asset Resolver returns the raw string unchanged
(and touches neither the cache nor the backend); in particular
`sanitize("https://example.com/a.png") = null`. -/
theorem c2_external_passthrough :
    (∀ raw : String,
        ((∀ c ∈ raw.data, jsWs c = true) ∨
            charsPrefix ['#'] (jsTrim raw.data) = true ∨
            isExternalAssetPath (jsTrim raw.data) = true) →
        normalizeProjectRelativeAsset raw = none) ∧
    (∀ (tauri : Bool) (backend : String → String → Except String String)
        (projectPath raw : String) (st : AssetCacheState),
        normalizeProjectRelativeAsset raw = none →
        resolveProjectAssetSource tauri backend projectPath raw st =
          (Except.ok raw, st)) ∧
    normalizeProjectRelativeAsset "https://example.com/a.png" = none := by
  refine ⟨fun raw h => ?_, fun tauri backend projectPath raw st h => ?_, by decide⟩
  · unfold normalizeProjectRelativeAsset
    rcases h with h | h | h
    · rw [jsTrim_eq_nil_of_all_ws h]
      simp
    · by_cases hnil : jsTrim raw.data = [] <;> simp [hnil, h]
    · by_cases hnil : jsTrim raw.data = [] <;>
        by_cases hfrag : charsPrefix ['#'] (jsTrim raw.data) = true <;>
        simp [hnil, hfrag, h]
  · unfold resolveProjectAssetSource
    rw [h]

/-- Witness for C2 at `"https://example.com/a.png"`: external input is
rejected by the sanitizer and passed through untouched by the resolver. -/
theorem c2_external_passthrough_witness :
    normalizeProjectRelativeAsset "https://example.com/a.png" = none ∧
    resolveProjectAssetSource true (fun _ _ => Except.ok "data:image/png;base64,x")
        "/proj" "https://example.com/a.png" (AssetCacheState.mk [] 0) =
      (Except.ok "https://example.com/a.png", AssetCacheState.mk [] 0) :=
  ⟨c2_external_passthrough.2.2,
    c2_external_passthrough.2.1 true (fun _ _ => Except.ok "data:image/png;base64,x")
      "/proj" "https://example.com/a.png" (AssetCacheState.mk [] 0)
      c2_external_passthrough.2.2⟩

/-- C6: asset resolution never propagates a failure.  The resolver returns
the raw string untouched when the sanitizer rejects, when the project path
is absent, or when the runtime is not Tauri; and when the backend load
rejects, the `ProjectAssetImage` effect catches the rejection and falls
back to the original raw string. -/
theorem c6_resolution_never_throws :
    (∀ (tauri : Bool) (backend : String → String → Except String String)
        (projectPath raw : String) (st : AssetCacheState),
        normalizeProjectRelativeAsset raw = none →
        resolveProjectAssetSource tauri backend projectPath raw st =
          (Except.ok raw, st)) ∧
    (∀ (tauri : Bool) (backend : String → String → Except String String)
        (raw : String) (st : AssetCacheState),
        resolveProjectAssetSource tauri backend "" raw st = (Except.ok raw, st)) ∧
    (∀ (backend : String → String → Except String String)
        (projectPath raw : String) (st : AssetCacheState),
        resolveProjectAssetSource false backend projectPath raw st =
          (Except.ok raw, st)) ∧
    (∀ (tauri : Bool) (backend : String → String → Except String String)
        (projectPath raw : String) (st st' : AssetCacheState) (e : String),
        resolveProjectAssetSource tauri backend projectPath raw st =
          (Except.error e, st') →
        projectAssetImageResolvedSrc tauri backend projectPath raw st = (raw, st')) := by
  refine ⟨fun tauri backend projectPath raw st h => ?_,
    fun tauri backend raw st => ?_, fun backend projectPath raw st => ?_,
    fun tauri backend projectPath raw st st' e h => ?_⟩
  · unfold resolveProjectAssetSource
    rw [h]
  · unfold resolveProjectAssetSource
    cases normalizeProjectRelativeAsset raw <;> simp
  · unfold resolveProjectAssetSource
    cases normalizeProjectRelativeAsset raw <;> simp
  · unfold projectAssetImageResolvedSrc
    rw [h]

/-- Witness for C6: a backend that always rejects, on a sanitized relative
reference, yields the original raw string from the image effect. -/
theorem c6_resolution_never_throws_witness :
    resolveProjectAssetSource true (fun _ _ => Except.error "missing file")
        "/proj" "images/a.png" (AssetCacheState.mk [] 0) =
      (Except.error "missing file", AssetCacheState.mk [] 1) ∧
    projectAssetImageResolvedSrc true (fun _ _ => Except.error "missing file")
        "/proj" "images/a.png" (AssetCacheState.mk [] 0) =
      ("images/a.png", AssetCacheState.mk [] 1) :=
  ⟨rfl,
    c6_resolution_never_throws.2.2.2 true (fun _ _ => Except.error "missing file")
      "/proj" "images/a.png" (AssetCacheState.mk [] 0) (AssetCacheState.mk [] 1)
      "missing file" rfl⟩

end FastSlides

namespace FastSlides

example : normalizeProjectRelativeAsset "../../etc/passwd" = none := by decide
example : normalizeProjectRelativeAsset "images/../../secret" = none := by decide
example : normalizeProjectRelativeAsset "/images/logo.png" = some "images/logo.png" := by decide
example : normalizeProjectRelativeAsset "/etc/passwd" = none := by decide
example : normalizeProjectRelativeAsset "https://example.com/a.png" = none := by decide
example : normalizeProjectRelativeAsset "./ x" = some " x" := by decide
example : normalizeProjectRelativeAsset " x" = some "x" := by decide
example : normalizeProjectRelativeAsset "./data:x" = some "data:x" := by decide
example : normalizeProjectRelativeAsset "data:x" = none := by decide
example : normalizeProjectRelativeAsset "images/a.png" = some "images/a.png" := by decide
example : normalizeProjectRelativeAsset "a/./b//c.png" = some "a/b/c.png" := by decide
example : normalizeProjectRelativeAsset "a\\b\\c.png" = some "a/b/c.png" := by decide
example : normalizeProjectRelativeAsset "  images/a.png?x=1#frag  " = some "images/a.png" := by decide
example : normalizeProjectRelativeAsset "#frag" = none := by decide
example : normalizeProjectRelativeAsset "   " = none := by decide
example : normalizeProjectRelativeAsset "/assets" = some "assets" := by decide

end FastSlides

namespace FastSlides

/-- `pathOnly` keeps a leading character that is neither `?` nor `#`
(whether or not the split regex falls back, since the head does not change
the query/fragment suffix). -/
theorem pathOnly_cons_keep {c : Char} {t : List Char} (h : keepPathChar c = true) :
    pathOnlyOf (c :: t) = c :: pathOnlyOf t := by
  simp only [pathOnlyOf, List.dropWhile_cons, List.takeWhile_cons, h, if_true]
  by_cases hcond : (t.dropWhile keepPathChar).all isRegexDot = true
  · rw [if_pos hcond, if_pos hcond]
  · rw [if_neg hcond, if_neg hcond]

/-- The code's `relative` value on a cons whose head survives `pathOnly`. -/
theorem body_cons_keep {c : Char} {t : List Char} (h : keepPathChar c = true) :
    bodyOfTrimmed (c :: t) = bsToSlash c :: bodyOfTrimmed t := by
  simp [bodyOfTrimmed, pathOnly_cons_keep h, toSlashes]

/-- If the code's `relative` value starts with `/`, the trimmed input starts
with a kept character that backslash-normalization maps to `/`. -/
theorem body_slash_head {t : List Char}
    (h : charsPrefix ['/'] (bodyOfTrimmed t) = true) :
    ∃ c t', t = c :: t' ∧ keepPathChar c = true ∧ (c = '/' ∨ c = '\\') := by
  cases t with
  | nil => simp [bodyOfTrimmed, pathOnlyOf, toSlashes, charsPrefix] at h
  | cons c t' =>
    by_cases hk : keepPathChar c = true
    · refine ⟨c, t', rfl, hk, ?_⟩
      rw [body_cons_keep hk] at h
      simp only [charsPrefix, Bool.and_eq_true, decide_eq_true_eq] at h
      by_cases hbs : c = '\\'
      · exact Or.inr hbs
      · refine Or.inl ?_
        have : bsToSlash c = c := by simp [bsToSlash, hbs]
        rw [this] at h
        exact h.1.symm
    · -- head is `?` or `#`: without the fallback `pathOnly` is empty, with
      -- it the head survives unchanged — either way it is not `/`.
      exfalso
      have hk' : keepPathChar c = false := by
        simpa using hk
      have hq : c = '?' ∨ c = '#' := by
        simp only [keepPathChar, Bool.not_eq_eq_eq_not, Bool.not_true,
          Bool.or_eq_false_iff, decide_eq_false_iff_not] at hk'
        by_cases h1 : c = '?'
        · exact Or.inl h1
        · by_cases h2 : c = '#'
          · exact Or.inr h2
          · exact absurd hk' (by simp [h1, h2])
      have hbs : bsToSlash c = c := by
        rcases hq with rfl | rfl <;> rfl
      have hdw : (c :: t').dropWhile keepPathChar = c :: t' := by
        rw [List.dropWhile_cons, if_neg (by simp [hk'])]
      by_cases hcond : ((c :: t').dropWhile keepPathChar).all isRegexDot = true
      · have hpo : pathOnlyOf (c :: t') = [] := by
          rw [pathOnlyOf, if_pos hcond, List.takeWhile_cons, if_neg (by simp [hk'])]
        rw [bodyOfTrimmed, hpo] at h
        simp [toSlashes, charsPrefix] at h
      · have hpo : pathOnlyOf (c :: t') = c :: t' := by
          rw [pathOnlyOf, if_neg hcond]
        rw [bodyOfTrimmed, hpo] at h
        simp only [toSlashes, List.map_cons, hbs, charsPrefix, Bool.and_eq_true,
          decide_eq_true_eq] at h
        rcases hq with rfl | rfl <;> exact absurd h.1 (by decide)

/-- A protocol-relative test on input starting with a backslash fails. -/
theorem ext_backslash (t : List Char) : isExternalAssetPath ('\\' :: t) = false := rfl

/-- On input starting with a single `/`, externality reduces to the
protocol-relative `//` test. -/
theorem ext_slash (t : List Char) :
    isExternalAssetPath ('/' :: t) = charsPrefix ['/'] t := by
  simp [isExternalAssetPath, toLowerList, charsPrefix]

/-- No recognized project-asset root prefix starts with `//`. -/
theorem supported_double_slash (t : List Char) :
    supportedRootRelative ('/' :: '/' :: t) = false := rfl

/-- C3: an absolute reference (the code's `relative` value starts with `/`)
is accepted only when it matches one of the fixed recognized root prefixes
(`/assets/`, `/images/`, `/media/`, `/data/`); on a match it is rewritten
project-relative by dropping the leading slash, otherwise rejected; in
particular `sanitize("/images/logo.png") = "images/logo.png"` and
`sanitize("/etc/passwd") = null`. -/
theorem c3_root_prefix_allowance :
    (∀ raw : String, charsPrefix ['/'] (assetPathBody raw) = true →
        supportedRootRelative (assetPathBody raw) = false →
        normalizeProjectRelativeAsset raw = none) ∧
    (∀ raw : String, charsPrefix ['/'] (assetPathBody raw) = true →
        supportedRootRelative (assetPathBody raw) = true →
        normalizeProjectRelativeAsset raw =
          finishSegments ((assetPathBody raw).drop 1)) ∧
    normalizeProjectRelativeAsset "/images/logo.png" = some "images/logo.png" ∧
    normalizeProjectRelativeAsset "/etc/passwd" = none := by
  refine ⟨fun raw h1 h2 => ?_, fun raw h1 h2 => ?_, by decide, by decide⟩
  · unfold assetPathBody at h1 h2
    unfold normalizeProjectRelativeAsset
    by_cases hnil : jsTrim raw.data = []
    · simp [hnil]
    · by_cases hfrag : charsPrefix ['#'] (jsTrim raw.data) = true
      · simp [hnil, hfrag]
      · by_cases hext : isExternalAssetPath (jsTrim raw.data) = true
        · simp [hnil, hfrag, hext]
        · by_cases hpo : pathOnlyOf (jsTrim raw.data) = []
          · simp [hnil, hfrag, hext, hpo]
          · simp [hnil, hfrag, hext, hpo, h1, h2]
  · unfold assetPathBody at h1 h2 ⊢
    obtain ⟨c, t', htr, hkeep, hc⟩ := body_slash_head h1
    have hnil : jsTrim raw.data ≠ [] := by rw [htr]; simp
    have hfrag : ¬ charsPrefix ['#'] (jsTrim raw.data) = true := by
      rw [htr]
      rcases hc with rfl | rfl <;> simp [charsPrefix]
    have hext : ¬ isExternalAssetPath (jsTrim raw.data) = true := by
      rw [htr]
      rcases hc with rfl | rfl
      · rw [ext_slash]
        intro hpre
        cases t' with
        | nil => simp [charsPrefix] at hpre
        | cons c2 t'' =>
          simp only [charsPrefix, Bool.and_eq_true, decide_eq_true_eq] at hpre
          obtain ⟨rfl, -⟩ := hpre
          rw [htr, body_cons_keep hkeep, body_cons_keep (by decide)] at h2
          simp only [bsToSlash, if_neg (by decide : ¬ ('/' : Char) = '\\')] at h2
          rw [supported_double_slash] at h2
          exact Bool.false_ne_true h2
      · rw [ext_backslash]
        exact Bool.false_ne_true
    have hpo : pathOnlyOf (jsTrim raw.data) ≠ [] := by
      rw [htr, pathOnly_cons_keep hkeep]
      simp
    unfold normalizeProjectRelativeAsset
    simp [hnil, hfrag, hext, hpo, h1, h2]

/-- Witness for C3 at `"/etc/passwd"` (unrecognized absolute prefix, so
rejected) and `"/images/logo.png"` (recognized prefix, rewritten by
dropping the leading slash). -/
theorem c3_root_prefix_allowance_witness :
    normalizeProjectRelativeAsset "/etc/passwd" = none ∧
    normalizeProjectRelativeAsset "/images/logo.png" =
      finishSegments ((assetPathBody "/images/logo.png").drop 1) :=
  ⟨c3_root_prefix_allowance.1 "/etc/passwd" (by decide) (by decide),
    c3_root_prefix_allowance.2.1 "/images/logo.png" (by decide) (by decide)⟩

end FastSlides

namespace FastSlides

/-! ## Structure of sanitizer outputs

A successful `normalizeProjectRelativeAsset` result is the `/`-join of a
nonempty list of retained segments; each retained segment is nonempty, is
neither `.` nor `..`, and contains no `/`, `?`, `#` or `\`. -/

/-- A character that can occur inside a retained segment. -/
def goodChar (c : Char) : Bool := !(c = '/' || c = '\\')

/-- A segment the normalization loop can retain. -/
def GoodSeg (s : List Char) : Prop :=
  s ≠ [] ∧ s ≠ ['.'] ∧ s ≠ ['.', '.'] ∧ ∀ c ∈ s, goodChar c = true

theorem splitOnSlash_ne_nil (l : List Char) : splitOnSlash l ≠ [] := by
  cases l with
  | nil => simp [splitOnSlash]
  | cons c rest =>
    by_cases h : c = '/'
    · simp [splitOnSlash, h]
    · simp only [splitOnSlash, if_neg h]
      cases splitOnSlash rest <;> simp

/-- Characters of a split segment come from the input and are never `/`. -/
theorem splitOnSlash_mem {l : List Char} :
    ∀ seg ∈ splitOnSlash l, ∀ c ∈ seg, c ∈ l ∧ c ≠ '/' := by
  induction l with
  | nil => intro seg hseg c hc; simp [splitOnSlash] at hseg; simp [hseg] at hc
  | cons a rest ih =>
    intro seg hseg c hc
    by_cases ha : a = '/'
    · rw [splitOnSlash, if_pos ha] at hseg
      rcases List.mem_cons.mp hseg with hseg | hseg
      · simp [hseg] at hc
      · obtain ⟨hm, hne⟩ := ih seg hseg c hc
        exact ⟨List.mem_cons_of_mem a hm, hne⟩
    · rw [splitOnSlash, if_neg ha] at hseg
      cases hsp : splitOnSlash rest with
      | nil => exact absurd hsp (splitOnSlash_ne_nil rest)
      | cons seg0 segs =>
        rw [hsp] at hseg
        rcases List.mem_cons.mp hseg with hseg | hseg
        · subst hseg
          rcases List.mem_cons.mp hc with hc | hc
          · subst hc
            exact ⟨List.mem_cons_self c rest, ha⟩
          · obtain ⟨hm, hne⟩ := ih seg0 (hsp ▸ List.mem_cons_self seg0 segs) c hc
            exact ⟨List.mem_cons_of_mem a hm, hne⟩
        · obtain ⟨hm, hne⟩ :=
            ih seg (hsp ▸ List.mem_cons_of_mem seg0 hseg) c hc
          exact ⟨List.mem_cons_of_mem a hm, hne⟩

/-- Characters of the code's `relative` value are never `\` — backslash
normalization runs on the whole `pathOnly`, fallback or not.  (Unlike `?`
and `#`: when the split regex fails, the fallback keeps the query/fragment
suffix, so `relative` can contain them.) -/
theorem body_chars {t : List Char} :
    ∀ c ∈ bodyOfTrimmed t, c ≠ '\\' := by
  intro c hc
  obtain ⟨x, hx, rfl⟩ := List.mem_map.mp hc
  by_cases hbs : x = '\\'
  · subst hbs
    simp [bsToSlash]
  · rw [show bsToSlash x = x from by simp [bsToSlash, hbs]]
    exact hbs

/-- The normalization loop only retains good segments. -/
theorem normalizeSegments_good :
    ∀ (parts acc res : List (List Char)), (∀ s ∈ acc, GoodSeg s) →
      (∀ s ∈ parts, ∀ c ∈ s, goodChar c = true) →
      normalizeSegments acc parts = some res → ∀ s ∈ res, GoodSeg s := by
  intro parts
  induction parts with
  | nil =>
    intro acc res hacc _ h
    rw [normalizeSegments] at h
    cases h
    exact hacc
  | cons part rest ih =>
    intro acc res hacc hchars h
    rw [normalizeSegments] at h
    by_cases h1 : part = [] ∨ part = ['.']
    · rw [if_pos h1] at h
      exact ih acc res hacc (fun s hs => hchars s (List.mem_cons_of_mem part hs)) h
    · rw [if_neg h1] at h
      by_cases h2 : part = ['.', '.']
      · rw [if_pos h2] at h
        by_cases h3 : acc = []
        · rw [if_pos h3] at h
          exact absurd h (by simp)
        · rw [if_neg h3] at h
          exact ih acc.dropLast res
            (fun s hs => hacc s (List.dropLast_subset acc hs))
            (fun s hs => hchars s (List.mem_cons_of_mem part hs)) h
      · rw [if_neg h2] at h
        refine ih (acc ++ [part]) res ?_
          (fun s hs => hchars s (List.mem_cons_of_mem part hs)) h
        intro s hs
        rcases List.mem_append.mp hs with hs | hs
        · exact hacc s hs
        · rw [List.mem_singleton.mp hs]
          push_neg at h1
          exact ⟨h1.1, h1.2, h2, hchars part (List.mem_cons_self part rest)⟩

end FastSlides

namespace FastSlides

/-- On a list of good segments the normalization loop is the identity
(it appends every part to the accumulator). -/
theorem normalizeSegments_append :
    ∀ (parts acc : List (List Char)), (∀ s ∈ parts, GoodSeg s) →
      normalizeSegments acc parts = some (acc ++ parts) := by
  intro parts
  induction parts with
  | nil => intro acc _; simp [normalizeSegments]
  | cons part rest ih =>
    intro acc hgood
    obtain ⟨hne, hdot, hdd, -⟩ := hgood part (List.mem_cons_self part rest)
    rw [normalizeSegments, if_neg (by tauto), if_neg hdd,
      ih (acc ++ [part]) (fun s hs => hgood s (List.mem_cons_of_mem part hs))]
    simp

theorem joinSlash_singleton (seg : List Char) : joinSlash [seg] = seg := rfl

theorem joinSlash_cons_cons (a b : List Char) (t : List (List Char)) :
    joinSlash (a :: b :: t) = a ++ '/' :: joinSlash (b :: t) := rfl

theorem joinSlash_ne_nil {parts : List (List Char)} (hne : parts ≠ [])
    (hsegs : ∀ s ∈ parts, s ≠ []) : joinSlash parts ≠ [] := by
  match parts with
  | [] => exact absurd rfl hne
  | [seg] => exact hsegs seg (List.mem_singleton.mpr rfl)
  | seg :: seg2 :: rest =>
    rw [joinSlash_cons_cons]
    simp

/-- Every character of a `/`-join is a slash or comes from a segment. -/
theorem joinSlash_chars :
    ∀ (parts : List (List Char)), ∀ c ∈ joinSlash parts,
      c = '/' ∨ ∃ s ∈ parts, c ∈ s := by
  intro parts
  induction parts with
  | nil => intro c hc; simp [joinSlash] at hc
  | cons seg rest ih =>
    intro c hc
    match rest, hc with
    | [], hc => exact Or.inr ⟨seg, List.mem_cons_self seg [], hc⟩
    | seg2 :: rest2, hc =>
      rw [joinSlash_cons_cons] at hc
      rcases List.mem_append.mp hc with hc | hc
      · exact Or.inr ⟨seg, List.mem_cons_self seg _, hc⟩
      · rcases List.mem_cons.mp hc with hc | hc
        · exact Or.inl hc
        · rcases ih c hc with h | ⟨s, hs, hcs⟩
          · exact Or.inl h
          · exact Or.inr ⟨s, List.mem_cons_of_mem seg hs, hcs⟩

/-- A nonempty join starts with the first segment. -/
theorem joinSlash_cons (seg : List Char) (rest : List (List Char)) :
    ∃ t, joinSlash (seg :: rest) = seg ++ t := by
  match rest with
  | [] => exact ⟨[], by rw [joinSlash]; simp⟩
  | seg2 :: rest2 => exact ⟨'/' :: joinSlash (seg2 :: rest2), rfl⟩

/-- Splitting a slash-free list is trivial. -/
theorem splitOnSlash_no_slash {s : List Char} (h : ∀ c ∈ s, c ≠ '/') :
    splitOnSlash s = [s] := by
  induction s with
  | nil => rfl
  | cons c rest ih =>
    rw [splitOnSlash, if_neg (h c (List.mem_cons_self c rest)),
      ih (fun x hx => h x (List.mem_cons_of_mem c hx))]

/-- Splitting past the first slash after a slash-free chunk. -/
theorem splitOnSlash_chunk {s : List Char} (t : List Char) (h : ∀ c ∈ s, c ≠ '/') :
    splitOnSlash (s ++ '/' :: t) = s :: splitOnSlash t := by
  induction s with
  | nil => simp [splitOnSlash]
  | cons c rest ih =>
    rw [List.cons_append, splitOnSlash, if_neg (h c (List.mem_cons_self c rest)),
      ih (fun x hx => h x (List.mem_cons_of_mem c hx))]

/-- `split` undoes `join` on nonempty, slash-free segments. -/
theorem splitOnSlash_joinSlash :
    ∀ (parts : List (List Char)), parts ≠ [] →
      (∀ s ∈ parts, s ≠ [] ∧ ∀ c ∈ s, c ≠ '/') →
      splitOnSlash (joinSlash parts) = parts := by
  intro parts
  induction parts with
  | nil => intro h; exact absurd rfl h
  | cons seg rest ih =>
    intro _ hgood
    match rest with
    | [] =>
      rw [joinSlash_singleton,
        splitOnSlash_no_slash (hgood seg (List.mem_cons_self seg [])).2]
    | seg2 :: rest2 =>
      rw [joinSlash_cons_cons,
        splitOnSlash_chunk _ (hgood seg (List.mem_cons_self seg _)).2,
        ih (by simp) (fun s hs => hgood s (List.mem_cons_of_mem seg hs))]

/-- Every accepted sanitizer output is the `/`-join of a nonempty list of
good segments. -/
theorem sanitizer_output_structure {raw rel : String}
    (h : normalizeProjectRelativeAsset raw = some rel) :
    ∃ parts, parts ≠ [] ∧ (∀ s ∈ parts, GoodSeg s) ∧
      rel = String.mk (joinSlash parts) := by
  unfold normalizeProjectRelativeAsset at h
  by_cases hnil : jsTrim raw.data = []
  · rw [if_pos hnil] at h; exact absurd h (by simp)
  rw [if_neg hnil] at h
  by_cases hfrag : charsPrefix ['#'] (jsTrim raw.data) = true
  · rw [if_pos hfrag] at h; exact absurd h (by simp)
  rw [if_neg hfrag] at h
  by_cases hext : isExternalAssetPath (jsTrim raw.data) = true
  · rw [if_pos hext] at h; exact absurd h (by simp)
  rw [if_neg hext] at h
  by_cases hpo : pathOnlyOf (jsTrim raw.data) = []
  · rw [if_pos hpo] at h; exact absurd h (by simp)
  rw [if_neg hpo] at h
  have main : ∀ X : List Char, (∀ c ∈ X, c ≠ '\\') →
      finishSegments X = some rel →
      ∃ parts, parts ≠ [] ∧ (∀ s ∈ parts, GoodSeg s) ∧
        rel = String.mk (joinSlash parts) := by
    intro X hX hfin
    unfold finishSegments at hfin
    cases hns : normalizeSegments [] (splitOnSlash X) with
    | none => rw [hns] at hfin; exact absurd hfin (by simp)
    | some parts =>
      rw [hns] at hfin
      cases parts with
      | nil => exact absurd hfin (by simp)
      | cons p ps =>
        refine ⟨p :: ps, by simp, ?_, by simpa using hfin.symm⟩
        refine normalizeSegments_good (splitOnSlash X) [] (p :: ps) (by simp) ?_ hns
        intro s hs c hc
        obtain ⟨hmem, hslash⟩ := splitOnSlash_mem s hs c hc
        have hb := hX c hmem
        simp [goodChar, hslash, hb]
  by_cases habs : charsPrefix ['/'] (bodyOfTrimmed (jsTrim raw.data)) = true
  · rw [if_pos habs] at h
    by_cases hsup : supportedRootRelative (bodyOfTrimmed (jsTrim raw.data)) = true
    · rw [if_pos hsup] at h
      exact main _ (fun c hc => body_chars c (List.drop_subset 1 _ hc)) h
    · rw [if_neg hsup] at h; exact absurd h (by simp)
  · rw [if_neg habs] at h
    exact main _ body_chars h

/-- An accepted sanitizer output is never the empty string. -/
theorem sanitizer_output_ne_empty {raw rel : String}
    (h : normalizeProjectRelativeAsset raw = some rel) : rel ≠ "" := by
  obtain ⟨parts, hne, hgood, rfl⟩ := sanitizer_output_structure h
  intro hcontra
  have : joinSlash parts = [] := by simpa using congrArg String.data hcontra
  exact joinSlash_ne_nil hne (fun s hs => (hgood s hs).1) this

end FastSlides

namespace FastSlides

/-- C5 counterexample: the cache-hit test `if (cached)` uses JavaScript
truthiness, so a successfully loaded and stored *empty* payload is treated
as a miss — a second `resolve` with the same project/path issues a second
backend read instead of returning the stored payload. -/
theorem c5_cache_reuse_counterexample :
    (resolveProjectAssetSource true (fun _ _ => Except.ok "")
        "p" "images/a.png" (AssetCacheState.mk [] 0)).1 = Except.ok "" ∧
    (resolveProjectAssetSource true (fun _ _ => Except.ok "")
        "p" "images/a.png" (AssetCacheState.mk [] 0)).2 =
      AssetCacheState.mk [("p" ++ "::" ++ "images/a.png", "")] 1 ∧
    (resolveProjectAssetSource true (fun _ _ => Except.ok "")
        "p" "images/a.png"
        (AssetCacheState.mk [("p" ++ "::" ++ "images/a.png", "")] 1)).2.reads = 2 :=
  ⟨rfl, rfl, rfl⟩

/-- C5 (amended): once a first resolve has succeeded and stored a
*nonempty* payload under the key `projectPath ++ "::" ++ relativePath`,
a subsequent resolve with the same pair returns the cached payload and
leaves the read count unchanged (no second backend file read).  The
nonemptiness proviso is forced by the truthiness check exposed in the
counterexample. -/
theorem c5_cache_reuse
    (backend : String → String → Except String String)
    (projectPath raw rel v : String) (st : AssetCacheState)
    (hrel : normalizeProjectRelativeAsset raw = some rel)
    (hpp : projectPath ≠ "")
    (hmiss : lookupCache (projectPath ++ "::" ++ rel) st.cache = none)
    (hload : backend projectPath raw = Except.ok v)
    (hv : v ≠ "") :
    resolveProjectAssetSource true backend projectPath raw st =
      (Except.ok v,
        AssetCacheState.mk ((projectPath ++ "::" ++ rel, v) :: st.cache)
          (st.reads + 1)) ∧
    resolveProjectAssetSource true backend projectPath raw
        (AssetCacheState.mk ((projectPath ++ "::" ++ rel, v) :: st.cache)
          (st.reads + 1)) =
      (Except.ok v,
        AssetCacheState.mk ((projectPath ++ "::" ++ rel, v) :: st.cache)
          (st.reads + 1)) := by
  have hne : rel ≠ "" := sanitizer_output_ne_empty hrel
  constructor
  · simp only [resolveProjectAssetSource, hrel]
    rw [if_neg (by simp [hne, hpp])]
    simp only [hmiss, hload]
  · simp only [resolveProjectAssetSource, hrel]
    rw [if_neg (by simp [hne, hpp])]
    have hhit :
        lookupCache (projectPath ++ "::" ++ rel)
          ((projectPath ++ "::" ++ rel, v) :: st.cache) = some v := by
      simp [lookupCache]
    simp only [hhit]
    rw [if_neg hv]

/-- Witness for C5 (amended) at a concrete project, reference and backend:
the second resolve returns the cached data URL with no second read. -/
theorem c5_cache_reuse_witness :
    resolveProjectAssetSource true (fun _ _ => Except.ok "data:image/png;base64,Zg==")
        "/proj" "images/a.png"
        (AssetCacheState.mk [("/proj" ++ "::" ++ "images/a.png",
          "data:image/png;base64,Zg==")] 1) =
      (Except.ok "data:image/png;base64,Zg==",
        AssetCacheState.mk [("/proj" ++ "::" ++ "images/a.png",
          "data:image/png;base64,Zg==")] 1) :=
  (c5_cache_reuse (fun _ _ => Except.ok "data:image/png;base64,Zg==")
    "/proj" "images/a.png" "images/a.png" "data:image/png;base64,Zg=="
    (AssetCacheState.mk [] 0) (by decide) (by decide) rfl rfl (by decide)).2

/-- Unfolds the `goodChar` conjunction. -/
theorem goodChar_spec {c : Char} (h : goodChar c = true) :
    c ≠ '/' ∧ c ≠ '\\' := by
  simp only [goodChar, Bool.not_eq_eq_eq_not, Bool.not_true, Bool.or_eq_false_iff,
    decide_eq_false_iff_not] at h
  exact ⟨h.1, h.2⟩

/-- C4 counterexample: the sanitizer is not idempotent on all accepted
inputs.  `sanitize("./ x")` is accepted and yields `" x"` (the retained
segment keeps its leading space), but sanitizing that output trims the
space and yields `"x"`.  A second failure mode comes from the
`splitAssetPathAndSuffix` fallback: when a `#` is followed by a line
terminator the split regex fails and the fragment survives, so
`sanitize("x/../#a\nb") = "#a\nb"` while `sanitize("#a\nb") = null`. -/
theorem c4_idempotence_counterexample :
    normalizeProjectRelativeAsset "./ x" = some " x" ∧
    (normalizeProjectRelativeAsset "./ x").bind normalizeProjectRelativeAsset =
      some "x" ∧
    ¬ ((normalizeProjectRelativeAsset "./ x").bind normalizeProjectRelativeAsset =
        normalizeProjectRelativeAsset "./ x") ∧
    normalizeProjectRelativeAsset "x/../#a\nb" = some "#a\nb" ∧
    (normalizeProjectRelativeAsset "x/../#a\nb").bind normalizeProjectRelativeAsset =
      none ∧
    normalizeProjectRelativeAsset "a#b/x\n/../c" = some "a#b/c" ∧
    (normalizeProjectRelativeAsset "a#b/x\n/../c").bind normalizeProjectRelativeAsset =
      some "a" := by
  refine ⟨by decide, by decide, by decide, by decide, by decide, by decide, by decide⟩

/-- C4 (amended): the sanitizer is idempotent on every accepted input whose
output `q` is itself trimmed, is not recognized as external, does not begin
with `#`, and is left whole by the query/fragment split
(`splitAssetPathAndSuffix(q).pathOnly = q`, which holds when `q` contains
no `?`/`#` and also when its first `?`/`#` is followed by a line terminator,
making the split regex fail and fall back to the whole string): then
`sanitize(q) = q`.  Each proviso is forced: `sanitize("./ x") = " x"` but
`sanitize(" x") = "x"` (edge whitespace); `sanitize("./data:x") = "data:x"`
but `sanitize("data:x") = null` (external); `sanitize("x/../#a\nb") =
"#a\nb"` but `sanitize("#a\nb") = null` (leading fragment via the regex
fallback); `sanitize("a#b/x\n/../c") = "a#b/c"` but
`sanitize("a#b/c") = "a"` (popping the segment that carried the line
terminator lets the second pass re-split the fragment suffix the fallback
had kept). -/
theorem c4_sanitize_idempotent {raw rel : String}
    (h : normalizeProjectRelativeAsset raw = some rel)
    (htrim : jsTrim rel.data = rel.data)
    (hext : isExternalAssetPath rel.data = false)
    (hfrag : charsPrefix ['#'] rel.data = false)
    (hsplit : pathOnlyOf rel.data = rel.data) :
    normalizeProjectRelativeAsset rel = some rel := by
  obtain ⟨parts, hne, hgood, hmk⟩ := sanitizer_output_structure h
  have hdata : rel.data = joinSlash parts := by rw [hmk]
  obtain ⟨p, ps, rfl⟩ := List.exists_cons_of_ne_nil hne
  obtain ⟨d, p', rfl⟩ :=
    List.exists_cons_of_ne_nil (hgood p (List.mem_cons_self p ps)).1
  obtain ⟨t, hjoin⟩ := joinSlash_cons (d :: p') ps
  have hgd : goodChar d = true :=
    (hgood _ (List.mem_cons_self _ ps)).2.2.2 d (List.mem_cons_self d p')
  have hgd' : d ≠ '/' ∧ d ≠ '\\' := goodChar_spec hgd
  have hhead : rel.data = d :: (p' ++ t) := by rw [hdata, hjoin]; simp
  have hnoslash : ∀ c ∈ rel.data, bsToSlash c = c := by
    intro c hc
    rw [hdata] at hc
    rcases joinSlash_chars _ c hc with rfl | ⟨s, hs, hcs⟩
    · decide
    · obtain ⟨-, h4⟩ := goodChar_spec ((hgood s hs).2.2.2 c hcs)
      simp [bsToSlash, h4]
  have hbody : bodyOfTrimmed rel.data = rel.data := by
    rw [bodyOfTrimmed, hsplit, toSlashes, List.map_congr_left hnoslash, List.map_id']
  unfold normalizeProjectRelativeAsset
  rw [htrim]
  rw [if_neg (by rw [hhead]; simp)]
  rw [if_neg (by simp [hfrag])]
  rw [if_neg (by rw [hext]; simp)]
  rw [if_neg (by rw [hsplit, hhead]; simp)]
  rw [hbody]
  rw [if_neg (by
    rw [hhead]
    simp [charsPrefix, hgd'.1, Ne.symm hgd'.1])]
  rw [hdata]
  unfold finishSegments
  rw [splitOnSlash_joinSlash _ (by simp) (fun s hs =>
    ⟨(hgood s hs).1, fun c hc =>
      (goodChar_spec ((hgood s hs).2.2.2 c hc)).1⟩)]
  rw [normalizeSegments_append _ [] hgood]
  simp only [List.nil_append]
  rw [hmk]

/-- Witness for C4 (amended) at two accepted inputs: `"images/a.png"`
(quirk-free output) and `"x/../a#b\nc"`, whose output `"a#b\nc"` keeps
its fragment suffix through the split-regex fallback and is still a fixed
point. -/
theorem c4_sanitize_idempotent_witness :
    normalizeProjectRelativeAsset "images/a.png" = some "images/a.png" ∧
    normalizeProjectRelativeAsset "a#b\nc" = some "a#b\nc" :=
  ⟨@c4_sanitize_idempotent "images/a.png" "images/a.png"
      (by decide) (by decide) (by decide) (by decide) (by decide),
    @c4_sanitize_idempotent "x/../a#b\nc" "a#b\nc"
      (by decide) (by decide) (by decide) (by decide) (by decide)⟩

end FastSlides

namespace FastSlides

/-! ## Slide Index Tracker (`Home` component state)

`Home` keeps `activeSlideIndex` (a number, modelled as `Int`),
`embeddedSlideCount`/fallback counts (collapsed into `visibleSlideCount`,
which is what `maxSlideIndex` is computed from) and `presenterMode`.  Each
operation that can change the index is one step of an explicit state
machine:

* `recompile n` — the render effect calls `onSlideCountChange(n)` and the
  `useEffect` on `maxSlideIndex` clamps via
  `setActiveSlideIndex(previous => Math.min(previous, maxSlideIndex))`;
* `tocSelect i` — `handleTocSelect` sets the index to a clicked entry's
  `index`; entries come from `slideTocEntries`, whose indices range over
  the visible slide count (validity side condition);
* `slideClick i` — the click handler calls `onActiveSlidePick(clickedIndex)`
  with `clickedIndex = slides.indexOf(slide) ≥ 0`, only outside presenter
  mode;
* `keyNext`/`keyPrev` — ArrowRight/ArrowLeft in presenter mode:
  `Math.min(previous + 1, maxSlideIndex)` / `Math.max(previous - 1, 0)`;
* `viewportSync dists` — the scroll/resize effect sets the index to
  `getCurrentCenteredSlideIndex()` when it is ≥ 0; the slide `dataset`
  indices were assigned `0 .. slides.length - 1` by the render effect, so
  the argmin loop is modelled over the list of slide-center distances;
* `togglePresenter dists` — entering presenter captures the centered slide
  when ≥ 0; exiting only scrolls;
* `projectSwitch` — resets index 0, count 0, list mode. -/

structure PreviewNav where
  visibleSlideCount : Nat
  activeSlideIndex : Int
  presenterMode : Bool
  deriving DecidableEq

/-- `Math.max(visibleSlideCount - 1, 0)`. -/
def maxSlideIndexOf (s : PreviewNav) : Int :=
  max ((s.visibleSlideCount : Int) - 1) 0

/-- The argmin loop of `getCurrentCenteredSlideIndex`: strict `<` keeps the
first of tied distances; `dataset.slideIndex` equals the position. -/
def centeredIndexAux : List Int → Nat → Nat → Int → Nat
  | [], _, best, _ => best
  | d :: ds, pos, best, minD =>
    if d < minD then centeredIndexAux ds (pos + 1) pos d
    else centeredIndexAux ds (pos + 1) best minD

/-- Source: `getCurrentCenteredSlideIndex` — `-1` when no container/slides,
else the argmin position (first iteration always beats the `+∞` start). -/
def getCurrentCenteredSlideIndex (dists : List Int) : Int :=
  match dists with
  | [] => -1
  | d :: rest => Int.ofNat (centeredIndexAux rest 1 0 d)

inductive NavOp where
  | recompile (n : Nat)
  | tocSelect (i : Nat)
  | slideClick (i : Nat)
  | keyNext
  | keyPrev
  | viewportSync (dists : List Int)
  | togglePresenter (dists : List Int)
  | projectSwitch

/-- One step of the `Home` active-slide-index state machine. -/
def navStep (s : PreviewNav) : NavOp → PreviewNav
  | .recompile n =>
    let s1 := { s with visibleSlideCount := n }
    { s1 with activeSlideIndex := min s1.activeSlideIndex (maxSlideIndexOf s1) }
  | .tocSelect i => { s with activeSlideIndex := (i : Int) }
  | .slideClick i =>
    if s.presenterMode then s else { s with activeSlideIndex := (i : Int) }
  | .keyNext =>
    if s.presenterMode then
      { s with activeSlideIndex := min (s.activeSlideIndex + 1) (maxSlideIndexOf s) }
    else s
  | .keyPrev =>
    if s.presenterMode then
      { s with activeSlideIndex := max (s.activeSlideIndex - 1) 0 }
    else s
  | .viewportSync dists =>
    if s.presenterMode then s
    else
      let next := getCurrentCenteredSlideIndex dists
      if 0 ≤ next then { s with activeSlideIndex := next } else s
  | .togglePresenter dists =>
    if s.presenterMode then { s with presenterMode := false }
    else
      let c := getCurrentCenteredSlideIndex dists
      { s with
        activeSlideIndex := if 0 ≤ c then c else s.activeSlideIndex
        presenterMode := true }
  | .projectSwitch => PreviewNav.mk 0 0 false

/-- Provenance of an operation's payload: a table-of-contents entry or a
clicked slide always carries an index below the rendered slide count, and
the viewport loop observes one distance per rendered slide. -/
def NavOpValid (s : PreviewNav) : NavOp → Prop
  | .tocSelect i => i < s.visibleSlideCount
  | .slideClick i => i < s.visibleSlideCount
  | .viewportSync dists => dists.length = s.visibleSlideCount
  | .togglePresenter dists => dists.length = s.visibleSlideCount
  | _ => True

/-- The C7 invariant `0 ≤ index ≤ max(slideCount - 1, 0)`. -/
def NavInv (s : PreviewNav) : Prop :=
  0 ≤ s.activeSlideIndex ∧ s.activeSlideIndex ≤ maxSlideIndexOf s

theorem centeredIndexAux_lt :
    ∀ (ds : List Int) (pos best : Nat) (minD : Int), best < pos →
      centeredIndexAux ds pos best minD < pos + ds.length := by
  intro ds
  induction ds with
  | nil => intro pos best minD h; simpa [centeredIndexAux] using h
  | cons d rest ih =>
    intro pos best minD h
    rw [centeredIndexAux]
    by_cases hd : d < minD
    · rw [if_pos hd]
      have := ih (pos + 1) pos d (Nat.lt_succ_self pos)
      simpa [Nat.add_assoc, Nat.add_comm, Nat.add_left_comm] using this
    · rw [if_neg hd]
      have := ih (pos + 1) best minD (Nat.lt_succ_of_lt h)
      simpa [Nat.add_assoc, Nat.add_comm, Nat.add_left_comm] using this

theorem getCurrentCenteredSlideIndex_range {dists : List Int} (h : dists ≠ []) :
    0 ≤ getCurrentCenteredSlideIndex dists ∧
      getCurrentCenteredSlideIndex dists < (dists.length : Int) := by
  match dists with
  | [] => exact absurd rfl h
  | d :: rest =>
    have hlt := centeredIndexAux_lt rest 1 0 d Nat.zero_lt_one
    constructor
    · exact Int.ofNat_nonneg _
    · show Int.ofNat (centeredIndexAux rest 1 0 d) < ((d :: rest).length : Int)
      rw [Int.ofNat_eq_coe, List.length_cons]
      exact_mod_cast (by omega : centeredIndexAux rest 1 0 d < rest.length + 1)

/-- C7: every operation that can change the active slide index — recompile
with a new slide count (then clamp), table-of-contents selection, slide
click, keyboard next/previous, viewport-driven recomputation, presenter
mode toggle, project switch — preserves `0 ≤ index ≤ max(slideCount-1, 0)`;
keyboard navigation clamps at both ends with no wraparound; and a recompile
shrinking the count to 3 clamps an index of 4 down to 2. -/
theorem c7_active_index_clamped :
    (∀ (s : PreviewNav) (op : NavOp), NavInv s → NavOpValid s op →
        NavInv (navStep s op)) ∧
    (∀ s : PreviewNav, s.presenterMode = true →
        s.activeSlideIndex = maxSlideIndexOf s →
        (navStep s NavOp.keyNext).activeSlideIndex = maxSlideIndexOf s) ∧
    (∀ s : PreviewNav, s.presenterMode = true → s.activeSlideIndex = 0 →
        (navStep s NavOp.keyPrev).activeSlideIndex = 0) ∧
    (navStep (PreviewNav.mk 5 4 false) (NavOp.recompile 3)).activeSlideIndex = 2 := by
  refine ⟨fun s op hinv hvalid => ?_, fun s hp hidx => ?_, fun s hp hidx => ?_, by decide⟩
  · obtain ⟨h0, h1⟩ := hinv
    simp only [maxSlideIndexOf] at h1
    cases op with
    | recompile n =>
      simp only [navStep, NavInv, maxSlideIndexOf]
      omega
    | tocSelect i =>
      simp only [NavOpValid] at hvalid
      simp only [navStep, NavInv, maxSlideIndexOf]
      omega
    | slideClick i =>
      simp only [NavOpValid] at hvalid
      by_cases hp : s.presenterMode = true
      · simp only [navStep, hp, if_pos]
        exact ⟨h0, by simp only [maxSlideIndexOf]; exact h1⟩
      · simp only [navStep, if_neg hp, NavInv, maxSlideIndexOf]
        omega
    | keyNext =>
      by_cases hp : s.presenterMode = true
      · simp only [navStep, hp, if_pos, NavInv, maxSlideIndexOf]
        omega
      · simp only [navStep, if_neg hp]
        exact ⟨h0, by simp only [maxSlideIndexOf]; exact h1⟩
    | keyPrev =>
      by_cases hp : s.presenterMode = true
      · simp only [navStep, hp, if_pos, NavInv, maxSlideIndexOf]
        omega
      · simp only [navStep, if_neg hp]
        exact ⟨h0, by simp only [maxSlideIndexOf]; exact h1⟩
    | viewportSync dists =>
      simp only [NavOpValid] at hvalid
      by_cases hp : s.presenterMode = true
      · simp only [navStep, hp, if_pos]
        exact ⟨h0, by simp only [maxSlideIndexOf]; exact h1⟩
      · cases dists with
        | nil =>
          simp only [navStep, if_neg hp, getCurrentCenteredSlideIndex,
            show ¬ ((0 : Int) ≤ -1) from by omega, if_neg, not_false_eq_true]
          exact ⟨h0, by simp only [maxSlideIndexOf]; exact h1⟩
        | cons d rest =>
          have hr := @getCurrentCenteredSlideIndex_range (d :: rest) (by simp)
          have hcount : getCurrentCenteredSlideIndex (d :: rest) <
              (s.visibleSlideCount : Int) := by
            rw [← hvalid]
            exact_mod_cast hr.2
          simp only [navStep, if_neg hp, if_pos hr.1, NavInv, maxSlideIndexOf]
          exact ⟨hr.1, by omega⟩
    | togglePresenter dists =>
      simp only [NavOpValid] at hvalid
      by_cases hp : s.presenterMode = true
      · simp only [navStep, hp, if_pos, NavInv, maxSlideIndexOf]
        exact ⟨h0, h1⟩
      · cases dists with
        | nil =>
          simp only [navStep, if_neg hp, getCurrentCenteredSlideIndex,
            show ¬ ((0 : Int) ≤ -1) from by omega, if_neg, not_false_eq_true,
            NavInv, maxSlideIndexOf]
          exact ⟨h0, h1⟩
        | cons d rest =>
          have hr := @getCurrentCenteredSlideIndex_range (d :: rest) (by simp)
          have hcount : getCurrentCenteredSlideIndex (d :: rest) <
              (s.visibleSlideCount : Int) := by
            rw [← hvalid]
            exact_mod_cast hr.2
          simp only [navStep, if_neg hp, if_pos hr.1, NavInv, maxSlideIndexOf]
          exact ⟨hr.1, by omega⟩
    | projectSwitch =>
      show NavInv (PreviewNav.mk 0 0 false)
      exact ⟨by decide, by decide⟩
  · simp only [navStep, hp, if_pos, hidx]
    omega
  · simp only [navStep, hp, if_pos, hidx]
    omega

end FastSlides

namespace FastSlides

/-- Witness for C7: a table-of-contents pick keeps the invariant, ArrowRight
at the last slide stays there, ArrowLeft at slide 0 stays there. -/
theorem c7_active_index_clamped_witness :
    NavInv (navStep (PreviewNav.mk 3 1 false) (NavOp.tocSelect 2)) ∧
    (navStep (PreviewNav.mk 3 2 true) NavOp.keyNext).activeSlideIndex =
      maxSlideIndexOf (PreviewNav.mk 3 2 true) ∧
    (navStep (PreviewNav.mk 3 0 true) NavOp.keyPrev).activeSlideIndex = 0 :=
  ⟨c7_active_index_clamped.1 (PreviewNav.mk 3 1 false) (NavOp.tocSelect 2)
      ⟨by decide, by decide⟩ (by show (2 : Nat) < 3; decide),
    c7_active_index_clamped.2.1 (PreviewNav.mk 3 2 true) rfl (by decide),
    c7_active_index_clamped.2.2.1 (PreviewNav.mk 3 0 true) rfl rfl⟩

/-! ## Compile effect staleness (`EmbeddedDeckPreview`)

The `useEffect` on `source` sets a fresh `cancelled = false` flag per run
and its cleanup sets the previous run's flag, so a compile result is
applied only if no newer compile was issued: a settle for compile `id`
is live exactly when `id` is the latest issued id.  `deck` records which
compile's result is rendered (`setCompiledDeck`), `err` the surfaced
message (`setError`). -/

structure CompilePreviewState where
  latest : Nat
  deck : Option Nat
  err : String
  deriving DecidableEq

inductive CompileEvent where
  | issue (srcEmpty : Bool)
  | settleOk (id deck : Nat)
  | settleErr (id : Nat) (msg : String)

/-- Source: the `compileSource` effect.  `issue` is one effect run (empty
source short-circuits to the empty-document error; otherwise error and deck
are cleared and an async compile starts); `settleOk`/`settleErr` are the
arrival of that compile's result, gated by the cancelled flag
(`id = latest`). -/
def compileStep (s : CompilePreviewState) : CompileEvent → CompilePreviewState
  | .issue srcEmpty =>
    if srcEmpty then
      CompilePreviewState.mk (s.latest + 1) none "Project has an empty page.mdx."
    else CompilePreviewState.mk (s.latest + 1) none ""
  | .settleOk id deck =>
    if id = s.latest then { s with deck := some deck } else s
  | .settleErr id msg =>
    if id = s.latest then { s with err := msg } else s

/-- C8: a stale compile result is discarded silently — settling a compile
that is not the latest issued one leaves the state untouched — and in the
compile(A)-then-compile(B) scenario where A's result arrives after B's,
the rendered deck is B's and A's arrival changes nothing. -/
theorem c8_stale_compile_discarded :
    (∀ (s : CompilePreviewState) (id deck : Nat), id ≠ s.latest →
        compileStep s (CompileEvent.settleOk id deck) = s) ∧
    (∀ (s0 : CompilePreviewState) (dA dB : Nat),
        (compileStep
            (compileStep
              (compileStep (compileStep s0 (CompileEvent.issue false))
                (CompileEvent.issue false))
              (CompileEvent.settleOk
                (compileStep (compileStep s0 (CompileEvent.issue false))
                  (CompileEvent.issue false)).latest dB))
            (CompileEvent.settleOk
              (compileStep s0 (CompileEvent.issue false)).latest dA)).deck =
          some dB ∧
        compileStep
            (compileStep
              (compileStep (compileStep s0 (CompileEvent.issue false))
                (CompileEvent.issue false))
              (CompileEvent.settleOk
                (compileStep (compileStep s0 (CompileEvent.issue false))
                  (CompileEvent.issue false)).latest dB))
            (CompileEvent.settleOk
              (compileStep s0 (CompileEvent.issue false)).latest dA) =
          compileStep
            (compileStep (compileStep s0 (CompileEvent.issue false))
              (CompileEvent.issue false))
            (CompileEvent.settleOk
              (compileStep (compileStep s0 (CompileEvent.issue false))
                (CompileEvent.issue false)).latest dB)) := by
  constructor
  · intro s id deck h
    simp [compileStep, h]
  · intro s0 dA dB
    have h1 : compileStep s0 (CompileEvent.issue false) =
        CompilePreviewState.mk (s0.latest + 1) none "" := by
      simp [compileStep]
    have h2 : compileStep (CompilePreviewState.mk (s0.latest + 1) none "")
          (CompileEvent.issue false) =
        CompilePreviewState.mk (s0.latest + 1 + 1) none "" := by
      simp [compileStep]
    have h3 : compileStep (CompilePreviewState.mk (s0.latest + 1 + 1) none "")
          (CompileEvent.settleOk (s0.latest + 1 + 1) dB) =
        CompilePreviewState.mk (s0.latest + 1 + 1) (some dB) "" := by
      simp [compileStep]
    have h4 : compileStep (CompilePreviewState.mk (s0.latest + 1 + 1) (some dB) "")
          (CompileEvent.settleOk (s0.latest + 1) dA) =
        CompilePreviewState.mk (s0.latest + 1 + 1) (some dB) "" := by
      simp only [compileStep]
      rw [if_neg (by omega)]
    rw [h1, h2]
    dsimp only
    rw [h3, h4]
    exact ⟨rfl, rfl⟩

/-- Witness for C8: the stale-discard clause applied at a concrete state
and a non-latest compile id. -/
theorem c8_stale_compile_discarded_witness :
    compileStep (CompilePreviewState.mk 2 (some 7) "")
        (CompileEvent.settleOk 1 9) =
      CompilePreviewState.mk 2 (some 7) "" :=
  c8_stale_compile_discarded.1 (CompilePreviewState.mk 2 (some 7) "") 1 9
    (by decide)

/-! ## Slide table-of-contents rail (`SlideTocRail`, `slideTocEntries`) -/

structure TocEntry where
  index : Nat
  title : String
  deriving DecidableEq

/-- Source: `SlideTocRail` returns `null` when `entries.length <= 1`,
otherwise it renders the rail. -/
def slideTocRailRendered (entries : List TocEntry) : Bool :=
  !(entries.length ≤ 1)

/-- Source: the `slideTocEntries` memo of `Home`: the rendered outline when
nonempty, else `Slide N` entries synthesized from the visible slide
count. -/
def slideTocEntries (slideOutline : List TocEntry) (visibleSlideCount : Nat) :
    List TocEntry :=
  if slideOutline.length > 0 then slideOutline
  else (List.range visibleSlideCount).map fun index =>
    TocEntry.mk index ("Slide " ++ toString (index + 1))

/-- C10: the rail renders nothing exactly when given at most one entry; a
deck with at most one slide (outline of length ≤ 1, fallback count ≤ 1)
never shows the rail; and with an empty outline but fallback count ≥ 2,
synthesized `Slide N` entries are produced and the rail is shown. -/
theorem c10_toc_rail_visibility :
    (∀ entries : List TocEntry,
        slideTocRailRendered entries = false ↔ entries.length ≤ 1) ∧
    (∀ (slideOutline : List TocEntry) (visibleSlideCount : Nat),
        slideOutline.length ≤ 1 → visibleSlideCount ≤ 1 →
        slideTocRailRendered (slideTocEntries slideOutline visibleSlideCount) =
          false) ∧
    (∀ visibleSlideCount : Nat, 2 ≤ visibleSlideCount →
        slideTocEntries [] visibleSlideCount =
          ((List.range visibleSlideCount).map fun index =>
            TocEntry.mk index ("Slide " ++ toString (index + 1))) ∧
        slideTocRailRendered (slideTocEntries [] visibleSlideCount) = true) := by
  refine ⟨fun entries => ?_, fun slideOutline visibleSlideCount hO hC => ?_,
    fun visibleSlideCount h2 => ?_⟩
  · simp [slideTocRailRendered]
  · unfold slideTocEntries
    by_cases hlen : slideOutline.length > 0
    · rw [if_pos hlen]
      simp [slideTocRailRendered, hO]
    · rw [if_neg hlen]
      simp only [slideTocRailRendered, List.length_map, List.length_range]
      simp [hC]
  · have hro : ¬ (([] : List TocEntry).length > 0) := by simp
    refine ⟨by rw [slideTocEntries, if_neg hro], ?_⟩
    rw [slideTocEntries, if_neg hro]
    simp only [slideTocRailRendered, List.length_map, List.length_range]
    simp
    omega

/-- Witness for C10: a two-slide deck with empty outline synthesizes
`Slide 1`/`Slide 2` and shows the rail; a one-entry outline hides it. -/
theorem c10_toc_rail_visibility_witness :
    slideTocRailRendered (slideTocEntries [TocEntry.mk 0 "Intro"] 1) = false ∧
    slideTocEntries [] 2 =
      ((List.range 2).map fun index =>
        TocEntry.mk index ("Slide " ++ toString (index + 1))) ∧
    slideTocRailRendered (slideTocEntries [] 2) = true :=
  ⟨c10_toc_rail_visibility.2.1 [TocEntry.mk 0 "Intro"] 1 (by decide) (by decide),
    (c10_toc_rail_visibility.2.2 2 (by decide)).1,
    (c10_toc_rail_visibility.2.2 2 (by decide)).2⟩

end FastSlides

namespace FastSlides

/-! ## Design-token CSS mapping (`SlideTokens`, `tokensToCss`, `parseCssToTokens`)

`SlideTokens` is a fixed record of 28 string fields; it is modelled as a
function from the key enumeration.  `tokensToCss` serializes in the
declaration order of `TOKEN_TO_VAR`; `parseCssToTokens` runs the global
regex `--([\w-]+)\s*:\s*(.+?)\s*;` over the CSS and assigns every match
whose variable name is known.  The regex is modelled faithfully on
character lists: leftmost match, greedy `\s*` with give-back, lazy `(.+?)`
(`.` excludes line terminators), and scanning resumes after each match's
`;`. -/

inductive TokenKey where
  | slideBg | slideBorder | slideRadius | slidePadding | slideLayoutGap
  | slideCardBg | slideCardBorder | slideCardRadius | slideCardPadding
  | slideFontFamily | slideHeadingFont | slideCodeFont | slideMetaFont
  | slideMetaSize | slideFg | slideH1Color | slideH2Color | slideH3Color
  | slideBodyColor | slideMetaColor | slideAccent | slideLinkColor
  | slideCodeBg | slidePalette1 | slidePalette2 | slidePalette3
  | slidePalette4 | slidePalette5
  deriving DecidableEq

/-- The keys of `SlideTokens` in declaration order (`Object.entries`
iteration order of `TOKEN_TO_VAR`). -/
def TOKEN_KEYS : List TokenKey :=
  [.slideBg, .slideBorder, .slideRadius, .slidePadding, .slideLayoutGap,
   .slideCardBg, .slideCardBorder, .slideCardRadius, .slideCardPadding,
   .slideFontFamily, .slideHeadingFont, .slideCodeFont, .slideMetaFont,
   .slideMetaSize, .slideFg, .slideH1Color, .slideH2Color, .slideH3Color,
   .slideBodyColor, .slideMetaColor, .slideAccent, .slideLinkColor,
   .slideCodeBg, .slidePalette1, .slidePalette2, .slidePalette3,
   .slidePalette4, .slidePalette5]

/-- Source: `TOKEN_TO_VAR`. -/
def TOKEN_TO_VAR : TokenKey → String
  | .slideBg => "--slide-bg"
  | .slideBorder => "--slide-border"
  | .slideRadius => "--slide-radius"
  | .slidePadding => "--slide-padding"
  | .slideLayoutGap => "--slide-layout-gap"
  | .slideCardBg => "--slide-card-bg"
  | .slideCardBorder => "--slide-card-border"
  | .slideCardRadius => "--slide-card-radius"
  | .slideCardPadding => "--slide-card-padding"
  | .slideFontFamily => "--slide-font-family"
  | .slideHeadingFont => "--slide-heading-font"
  | .slideCodeFont => "--slide-code-font"
  | .slideMetaFont => "--slide-meta-font"
  | .slideMetaSize => "--slide-meta-size"
  | .slideFg => "--slide-fg"
  | .slideH1Color => "--slide-h1-color"
  | .slideH2Color => "--slide-h2-color"
  | .slideH3Color => "--slide-h3-color"
  | .slideBodyColor => "--slide-body-color"
  | .slideMetaColor => "--slide-meta-color"
  | .slideAccent => "--slide-accent"
  | .slideLinkColor => "--slide-link-color"
  | .slideCodeBg => "--slide-code-bg"
  | .slidePalette1 => "--slide-palette-1"
  | .slidePalette2 => "--slide-palette-2"
  | .slidePalette3 => "--slide-palette-3"
  | .slidePalette4 => "--slide-palette-4"
  | .slidePalette5 => "--slide-palette-5"

/-- A `SlideTokens` record. -/
def TokenRecord : Type := TokenKey → String

/-- `Array.prototype.join("\n")`. -/
def joinNl : List String → String
  | [] => ""
  | [line] => line
  | line :: rest => line ++ "\n" ++ joinNl rest

/-- Source: `tokensToCss`. -/
def tokensToCss (t : TokenRecord) : String :=
  ":root \x7b\n" ++
    joinNl (TOKEN_KEYS.map fun key => "  " ++ TOKEN_TO_VAR key ++ ": " ++ t key ++ ";") ++
    "\n\x7d\n"

/-- The regex word class `[\w-]`. -/
def wordChar (c : Char) : Bool :=
  ('a' ≤ c && c ≤ 'z') || ('A' ≤ c && c ≤ 'Z') || ('0' ≤ c && c ≤ '9') ||
    c = '_' || c = '-'

/-- Tail of the regex after the lazy group: `\s*;` (greedy whitespace run,
then a literal `;`). -/
def checkWsSemi (s : List Char) : Option (List Char) :=
  match s.dropWhile jsWs with
  | ';' :: rest => some rest
  | _ => none

/-- The lazy group with its tail, `(.+?)\s*;`: the shortest nonempty run of
dot characters after which `\s*;` matches; returns the captured value and
the rest after the `;`. -/
def lazyValue : List Char → Option (List Char × List Char)
  | [] => none
  | c :: cs =>
    if isRegexDot c then
      match checkWsSemi cs with
      | some rest => some ([c], rest)
      | none =>
        match lazyValue cs with
        | some (v, rest) => some (c :: v, rest)
        | none => none
    else none

/-- `\s*(.+?)\s*;`: the leading `\s*` is greedy but gives characters back
to the lazy group when the remainder cannot match. -/
def wsThenValue : List Char → Option (List Char × List Char)
  | [] => none
  | c :: cs =>
    if jsWs c then
      match wsThenValue cs with
      | some r => some r
      | none => lazyValue (c :: cs)
    else lazyValue (c :: cs)

/-- One match attempt of `--([\w-]+)\s*:\s*(.+?)\s*;` anchored at the head
of the input: on success, the captured (name, value) and the input after
the match. -/
def matchAt (s : List Char) : Option ((List Char × List Char) × List Char) :=
  match s with
  | '-' :: '-' :: s1 =>
    let name := s1.takeWhile wordChar
    if name = [] then none
    else
      match (s1.dropWhile wordChar).dropWhile jsWs with
      | ':' :: s4 =>
        match wsThenValue s4 with
        | some (v, rest) => some ((name, v), rest)
        | none => none
      | _ => none
  | _ => none

/-- The `while ((m = re.exec(css)) !== null)` loop: find the leftmost
match, emit it, resume after it; fuel is the input length (each step
consumes at least one character). -/
def findMatchesAux : Nat → List Char → List (List Char × List Char)
  | 0, _ => []
  | _, [] => []
  | fuel + 1, c :: cs =>
    match matchAt (c :: cs) with
    | some (nv, rest) => nv :: findMatchesAux fuel rest
    | none => findMatchesAux fuel cs

def findMatches (s : List Char) : List (List Char × List Char) :=
  findMatchesAux s.length s

/-- The inverted mapping `varToToken` (`Object.fromEntries` over the
swapped `TOKEN_TO_VAR` entries); the captured name lacks the `--`
prefix the regex consumed. -/
def varToToken (name : List Char) : Option TokenKey :=
  TOKEN_KEYS.find? fun k => (TOKEN_TO_VAR k).data = '-' :: '-' :: name

/-- Source: `parseCssToTokens` — every known-variable match assigns the
field, later matches overwrite earlier ones, unknown names are ignored. -/
def parseCssToTokens (css : String) : TokenKey → Option String :=
  (findMatches css.data).foldl
    (fun result nv =>
      match varToToken nv.1 with
      | some tokenKey => Function.update result tokenKey (some (String.mk nv.2))
      | none => result)
    fun _ => none

end FastSlides

namespace FastSlides

example : findMatches "--a-b: red;".data = [("a-b".data, "red".data)] := by decide
example : findMatches "x --a: 1px ;y--b:2;".data =
    [("a".data, "1px".data), ("b".data, "2".data)] := by decide
example : findMatches "--a: x;\n--b: a;b;".data =
    [("a".data, "x".data), ("b".data, "a".data)] := by decide
example : findMatches "--a:;;".data = [("a".data, ";".data)] := by decide
example : findMatches "--a:   ;".data = [("a".data, " ".data)] := by decide
example : findMatches "--a: b\n;".data = [("a".data, "b".data)] := by decide
example : parseCssToTokens "x" TokenKey.slideBg = none := by decide
example : parseCssToTokens "--slide-bg: red; --slide-bg: blue;" TokenKey.slideBg =
    some "blue" := by decide

end FastSlides

namespace FastSlides

theorem dropWhile_length_le (p : Char → Bool) (l : List Char) :
    (l.dropWhile p).length ≤ l.length := by
  induction l with
  | nil => simp
  | cons a t ih =>
    rw [List.dropWhile_cons]
    split
    · exact Nat.le_succ_of_le ih
    · exact Nat.le_refl _

theorem checkWsSemi_length {s rest : List Char} (h : checkWsSemi s = some rest) :
    rest.length < s.length := by
  unfold checkWsSemi at h
  cases hd : s.dropWhile jsWs with
  | nil => rw [hd] at h; exact absurd h (by simp)
  | cons c rest' =>
    rw [hd] at h
    by_cases hc : c = ';'
    · subst hc
      cases h
      have := dropWhile_length_le jsWs s
      rw [hd] at this
      simpa using Nat.lt_of_lt_of_le (Nat.lt_succ_self _) this
    · exact absurd h (by simp [hc])

theorem lazyValue_length :
    ∀ {s v rest : List Char}, lazyValue s = some (v, rest) → rest.length < s.length := by
  intro s
  induction s with
  | nil => intro v rest h; exact absurd h (by simp [lazyValue])
  | cons c cs ih =>
    intro v rest h
    rw [lazyValue] at h
    by_cases hdot : isRegexDot c = true
    · rw [if_pos hdot] at h
      cases hcw : checkWsSemi cs with
      | some rest' =>
        rw [hcw] at h
        cases h
        exact Nat.lt_succ_of_lt (checkWsSemi_length hcw)
      | none =>
        rw [hcw] at h
        cases hlz : lazyValue cs with
        | some vr =>
          rw [hlz] at h
          cases h
          exact Nat.lt_succ_of_lt (ih hlz)
        | none => rw [hlz] at h; exact absurd h (by simp)
    · rw [if_neg hdot] at h; exact absurd h (by simp)

theorem wsThenValue_length :
    ∀ {s v rest : List Char}, wsThenValue s = some (v, rest) → rest.length < s.length := by
  intro s
  induction s with
  | nil => intro v rest h; exact absurd h (by simp [wsThenValue])
  | cons c cs ih =>
    intro v rest h
    rw [wsThenValue] at h
    by_cases hws : jsWs c = true
    · rw [if_pos hws] at h
      cases hw : wsThenValue cs with
      | some r =>
        rw [hw] at h
        cases h
        exact Nat.lt_succ_of_lt (ih hw)
      | none =>
        rw [hw] at h
        exact lazyValue_length h
    · rw [if_neg hws] at h
      exact lazyValue_length h

theorem matchAt_length :
    ∀ {s : List Char} {nv : List Char × List Char} {rest : List Char},
      matchAt s = some (nv, rest) → rest.length < s.length := by
  intro s nv rest h
  unfold matchAt at h
  split at h
  case h_2 => exact absurd h (by simp)
  case h_1 s1 =>
    by_cases hn : s1.takeWhile wordChar = []
    · rw [if_pos hn] at h; exact absurd h (by simp)
    · rw [if_neg hn] at h
      split at h
      next s4 hd =>
        cases hw : wsThenValue s4 with
        | some vr =>
          obtain ⟨v, r⟩ := vr
          rw [hw] at h
          dsimp only at h
          cases h
          have h1 := wsThenValue_length hw
          have h2 : s4.length < ((s1.dropWhile wordChar).dropWhile jsWs).length := by
            rw [hd]; exact Nat.lt_succ_self _
          have h3 : ((s1.dropWhile wordChar).dropWhile jsWs).length ≤ s1.length :=
            Nat.le_trans (dropWhile_length_le jsWs _) (dropWhile_length_le wordChar s1)
          simp only [List.length_cons]
          omega
        | none => rw [hw] at h; exact absurd h (by simp)
      next => exact absurd h (by simp)

theorem findMatchesAux_nil : ∀ fuel, findMatchesAux fuel [] = [] := by
  intro fuel
  cases fuel <;> rfl

theorem findMatchesAux_congr :
    ∀ (f : Nat) (g : Nat) (s : List Char), s.length ≤ f → s.length ≤ g →
      findMatchesAux f s = findMatchesAux g s := by
  intro f
  induction f with
  | zero =>
    intro g s hf _
    rw [List.length_eq_zero.mp (Nat.le_zero.mp hf)]
    rw [findMatchesAux_nil, findMatchesAux_nil]
  | succ f ih =>
    intro g s hf hg
    cases s with
    | nil => rw [findMatchesAux_nil, findMatchesAux_nil]
    | cons c cs =>
      obtain ⟨g', rfl⟩ : ∃ g', g = g' + 1 := by
        cases g with
        | zero => simp at hg
        | succ g' => exact ⟨g', rfl⟩
      rw [findMatchesAux, findMatchesAux]
      cases hm : matchAt (c :: cs) with
      | some m =>
        obtain ⟨nv, rest⟩ := m
        have hlen := matchAt_length hm
        simp only [List.length_cons] at hf hg hlen
        dsimp only
        rw [ih g' rest (by omega) (by omega)]
      | none =>
        dsimp only
        simp only [List.length_cons] at hf hg
        exact ih g' cs (by omega) (by omega)

theorem findMatches_match {s : List Char} {nv : List Char × List Char}
    {rest : List Char} (h : matchAt s = some (nv, rest)) :
    findMatches s = nv :: findMatches rest := by
  cases s with
  | nil => exact absurd h (by simp [matchAt])
  | cons c cs =>
    have hlen := matchAt_length h
    simp only [List.length_cons] at hlen
    unfold findMatches
    simp only [List.length_cons]
    rw [findMatchesAux, h]
    dsimp only
    rw [findMatchesAux_congr cs.length rest.length rest (by omega) (Nat.le_refl _)]

theorem findMatches_skip {c : Char} {cs : List Char} (h : c ≠ '-') :
    findMatches (c :: cs) = findMatches cs := by
  have hm : matchAt (c :: cs) = none := by
    unfold matchAt
    split
    · next s1 heq =>
      rw [List.cons.injEq] at heq
      exact absurd heq.1 h
    · rfl
  unfold findMatches
  simp only [List.length_cons]
  rw [findMatchesAux, hm]

theorem findMatches_skipAll :
    ∀ {junk : List Char} (s : List Char), (∀ c ∈ junk, c ≠ '-') →
      findMatches (junk ++ s) = findMatches s := by
  intro junk
  induction junk with
  | nil => intro s _; rfl
  | cons c t ih =>
    intro s h
    rw [List.cons_append, findMatches_skip (h c (List.mem_cons_self c t)),
      ih s (fun x hx => h x (List.mem_cons_of_mem c hx))]

end FastSlides

namespace FastSlides

theorem takeWhile_append_stop {p : Char → Bool} {name : List Char} {x : Char}
    (t : List Char) (hall : ∀ c ∈ name, p c = true) (hx : p x = false) :
    (name ++ x :: t).takeWhile p = name := by
  induction name with
  | nil => simp [List.takeWhile_cons, hx]
  | cons a rest ih =>
    rw [List.cons_append, List.takeWhile_cons, hall a (List.mem_cons_self a rest)]
    rw [ih (fun c hc => hall c (List.mem_cons_of_mem a hc))]
    simp

theorem dropWhile_append_stop {p : Char → Bool} {name : List Char} {x : Char}
    (t : List Char) (hall : ∀ c ∈ name, p c = true) (hx : p x = false) :
    (name ++ x :: t).dropWhile p = x :: t := by
  induction name with
  | nil => simp [List.dropWhile_cons, hx]
  | cons a rest ih =>
    rw [List.cons_append, List.dropWhile_cons, hall a (List.mem_cons_self a rest)]
    simp only [ite_true]
    exact ih (fun c hc => hall c (List.mem_cons_of_mem a hc))

theorem matchAt_cons_dashes (l : List Char) : matchAt ('-' :: '-' :: l) =
    (if l.takeWhile wordChar = [] then none
     else
       match (l.dropWhile wordChar).dropWhile jsWs with
       | ':' :: s4 =>
         match wsThenValue s4 with
         | some (v, rest) => some ((l.takeWhile wordChar, v), rest)
         | none => none
       | _ => none) := rfl

theorem checkWsSemi_semi (rest : List Char) : checkWsSemi (';' :: rest) = some rest := rfl

theorem checkWsSemi_cons_ws {d : Char} {l : List Char} (h : jsWs d = true) :
    checkWsSemi (d :: l) = checkWsSemi l := by
  unfold checkWsSemi
  rw [List.dropWhile_cons, if_pos h]

theorem checkWsSemi_cons_nonws {d : Char} {l : List Char} (hws : jsWs d = false)
    (hd : d ≠ ';') : checkWsSemi (d :: l) = none := by
  unfold checkWsSemi
  rw [List.dropWhile_cons, if_neg (by simp [hws])]
  split
  · next rest heq =>
    rw [List.cons.injEq] at heq
    exact absurd heq.1 hd
  · rfl

theorem checkWsSemi_fail :
    ∀ {v : List Char} (t : List Char), v ≠ [] → (∀ c ∈ v, c ≠ ';') →
      (∀ c, v.getLast? = some c → jsWs c = false) →
      checkWsSemi (v ++ ';' :: t) = none := by
  intro v
  induction v with
  | nil => intro t h; exact absurd rfl h
  | cons d v' ih =>
    intro t _ hsemi hlast
    cases v' with
    | nil =>
      have hws : jsWs d = false := hlast d rfl
      exact checkWsSemi_cons_nonws hws (hsemi d (List.mem_cons_self d []))
    | cons e v'' =>
      by_cases hws : jsWs d = true
      · rw [List.cons_append, checkWsSemi_cons_ws hws]
        exact ih t (by simp)
          (fun c hc => hsemi c (List.mem_cons_of_mem d hc))
          (fun c hc => hlast c (by rw [List.getLast?_cons_cons]; exact hc))
      · rw [List.cons_append]
        exact checkWsSemi_cons_nonws (Bool.not_eq_true _ ▸ Bool.of_not_eq_true hws)
          (hsemi d (List.mem_cons_self d _))

theorem lazyValue_line :
    ∀ {v : List Char} (t : List Char), v ≠ [] →
      (∀ c ∈ v, isRegexDot c = true ∧ c ≠ ';') →
      (∀ c, v.getLast? = some c → jsWs c = false) →
      lazyValue (v ++ ';' :: t) = some (v, t) := by
  intro v
  induction v with
  | nil => intro t h; exact absurd rfl h
  | cons d v' ih =>
    intro t _ hvc hlast
    cases v' with
    | nil =>
      rw [List.cons_append, List.nil_append, lazyValue,
        if_pos (hvc d (List.mem_cons_self d [])).1, checkWsSemi_semi]
    | cons e v'' =>
      rw [List.cons_append, lazyValue, if_pos (hvc d (List.mem_cons_self d _)).1]
      rw [checkWsSemi_fail t (by simp)
        (fun c hc => (hvc c (List.mem_cons_of_mem d hc)).2)
        (fun c hc => hlast c (by rw [List.getLast?_cons_cons]; exact hc))]
      rw [ih t (by simp)
        (fun c hc => hvc c (List.mem_cons_of_mem d hc))
        (fun c hc => hlast c (by rw [List.getLast?_cons_cons]; exact hc))]

theorem wsThenValue_line {v : List Char} (t : List Char) (hv : v ≠ [])
    (hvc : ∀ c ∈ v, isRegexDot c = true ∧ c ≠ ';')
    (hhead : ∀ c, v.head? = some c → jsWs c = false)
    (hlast : ∀ c, v.getLast? = some c → jsWs c = false) :
    wsThenValue (' ' :: (v ++ ';' :: t)) = some (v, t) := by
  obtain ⟨d, v', rfl⟩ := List.exists_cons_of_ne_nil hv
  have hlz : lazyValue ((d :: v') ++ ';' :: t) = some (d :: v', t) :=
    lazyValue_line t (by simp) hvc hlast
  rw [wsThenValue, if_pos (by decide : jsWs ' ' = true)]
  rw [List.cons_append, wsThenValue, if_neg (by simp [hhead d rfl])]
  rw [List.cons_append] at hlz
  rw [hlz]

theorem matchAt_line {name v : List Char} (t : List Char)
    (hn : name ≠ []) (hw : ∀ c ∈ name, wordChar c = true)
    (hv : v ≠ []) (hvc : ∀ c ∈ v, isRegexDot c = true ∧ c ≠ ';')
    (hhead : ∀ c, v.head? = some c → jsWs c = false)
    (hlast : ∀ c, v.getLast? = some c → jsWs c = false) :
    matchAt ('-' :: '-' :: (name ++ ':' :: ' ' :: (v ++ ';' :: t))) =
      some ((name, v), t) := by
  have htake : (name ++ ':' :: ' ' :: (v ++ ';' :: t)).takeWhile wordChar = name :=
    takeWhile_append_stop _ hw (by decide)
  have hdrop : (name ++ ':' :: ' ' :: (v ++ ';' :: t)).dropWhile wordChar =
      ':' :: ' ' :: (v ++ ';' :: t) :=
    dropWhile_append_stop _ hw (by decide)
  rw [matchAt_cons_dashes, htake, hdrop, if_neg hn]
  rw [show ((':' :: ' ' :: (v ++ ';' :: t)).dropWhile jsWs) =
    ':' :: ' ' :: (v ++ ';' :: t) from rfl]
  show (match wsThenValue (' ' :: (v ++ ';' :: t)) with
    | some (v', rest) => some ((name, v'), rest)
    | none => none) = some ((name, v), t)
  rw [wsThenValue_line t hv hvc hhead hlast]

end FastSlides

namespace FastSlides

/-- The captured variable name of a key (without the `--` the regex
consumed). -/
def varBody (k : TokenKey) : List Char := (TOKEN_TO_VAR k).data.drop 2

/-- A serialized token value the regex recovers exactly: nonempty, free of
`;` and line terminators, and without leading or trailing whitespace. -/
def GoodTokenValue (v : String) : Prop :=
  v.data ≠ [] ∧ (∀ c ∈ v.data, isRegexDot c = true ∧ c ≠ ';') ∧
  (∀ c, v.data.head? = some c → jsWs c = false) ∧
  (∀ c, v.data.getLast? = some c → jsWs c = false)

theorem tokenKey_complete : ∀ k : TokenKey, k ∈ TOKEN_KEYS := by
  intro k
  cases k <;> decide

theorem varBody_spec : ∀ k : TokenKey,
    (TOKEN_TO_VAR k).data = '-' :: '-' :: varBody k ∧
    varBody k ≠ [] ∧ ∀ c ∈ varBody k, wordChar c = true := by
  intro k
  cases k <;> exact ⟨rfl, by decide, by decide⟩

theorem varToToken_varBody : ∀ k : TokenKey, varToToken (varBody k) = some k := by
  intro k
  cases k <;> decide

/-- One serialized line, as character data:
`"  " ++ varName ++ ": " ++ value ++ ";"`. -/
def lineData (t : TokenRecord) (k : TokenKey) : List Char :=
  ' ' :: ' ' :: ((TOKEN_TO_VAR k).data ++ ':' :: ' ' :: ((t k).data ++ [';']))

/-- The `\n`-joined serialized lines for a list of keys, as character
data. -/
def cssLinesData (t : TokenRecord) : List TokenKey → List Char
  | [] => []
  | [k] => lineData t k
  | k :: ks => lineData t k ++ '\n' :: cssLinesData t ks

theorem cssLinesData_cons_cons (t : TokenRecord) (k k2 : TokenKey)
    (ks : List TokenKey) :
    cssLinesData t (k :: k2 :: ks) = lineData t k ++ '\n' :: cssLinesData t (k2 :: ks) :=
  rfl

theorem cssLines_eq (t : TokenRecord) :
    ∀ ks : List TokenKey,
      (joinNl (ks.map fun key => "  " ++ TOKEN_TO_VAR key ++ ": " ++ t key ++ ";")).data =
        cssLinesData t ks := by
  intro ks
  induction ks with
  | nil => rfl
  | cons k ks ih =>
    cases ks with
    | nil =>
      show ("  " ++ TOKEN_TO_VAR k ++ ": " ++ t k ++ ";").data = lineData t k
      simp [String.data_append, lineData]
    | cons k2 ks2 =>
      show (("  " ++ TOKEN_TO_VAR k ++ ": " ++ t k ++ ";") ++ "\n" ++
          joinNl ((k2 :: ks2).map fun key =>
            "  " ++ TOKEN_TO_VAR key ++ ": " ++ t key ++ ";")).data =
        cssLinesData t (k :: k2 :: ks2)
      rw [cssLinesData_cons_cons]
      simp [String.data_append, ih, lineData]
      rw [List.map_cons] at ih
      exact ih

/-- Scanning the serialized lines for `ks` followed by a newline and any
tail yields exactly one (name, value) match per key, in order. -/
theorem scan_cssLines (t : TokenRecord) :
    ∀ (ks : List TokenKey) (tail : List Char),
      (∀ k ∈ ks, GoodTokenValue (t k)) →
      findMatches (cssLinesData t ks ++ '\n' :: tail) =
        (ks.map fun k => (varBody k, (t k).data)) ++ findMatches tail := by
  intro ks
  induction ks with
  | nil =>
    intro tail _
    show findMatches ([] ++ '\n' :: tail) = [] ++ findMatches tail
    rw [List.nil_append, List.nil_append]
    exact findMatches_skip (by decide)
  | cons k ks ih =>
    intro tail hgood
    obtain ⟨hvar, hnne, hword⟩ := varBody_spec k
    obtain ⟨hve, hvc, hhead, hlast⟩ := hgood k (List.mem_cons_self k ks)
    have hline : ∀ rest : List Char,
        findMatches (lineData t k ++ rest) =
          (varBody k, (t k).data) ::
            findMatches ((fun r => r) rest) := by
      intro rest
      have hshape : lineData t k ++ rest =
          ' ' :: ' ' :: ('-' :: '-' ::
            (varBody k ++ ':' :: ' ' :: ((t k).data ++ ';' :: rest))) := by
        simp [lineData, hvar]
      rw [hshape]
      rw [findMatches_skip (by decide), findMatches_skip (by decide)]
      rw [findMatches_match (matchAt_line rest hnne hword hve hvc hhead hlast)]
    cases ks with
    | nil =>
      show findMatches (lineData t k ++ '\n' :: tail) = _
      rw [hline ('\n' :: tail)]
      rw [findMatches_skip (by decide)]
      rfl
    | cons k2 ks2 =>
      rw [cssLinesData_cons_cons, List.append_assoc, List.cons_append]
      rw [hline ('\n' :: (cssLinesData t (k2 :: ks2) ++ '\n' :: tail))]
      show _ = ((varBody k, (t k).data) ::
          (k2 :: ks2).map fun k => (varBody k, (t k).data)) ++ findMatches tail
      rw [findMatches_skip (by decide)]
      rw [ih tail (fun k hk => hgood k (List.mem_cons_of_mem _ hk))]
      rfl

/-- Evaluating the assignment fold of `parseCssToTokens` over the per-key
matches. -/
theorem parse_fold (t : TokenRecord) :
    ∀ (ks : List TokenKey) (acc : TokenKey → Option String) (k0 : TokenKey),
      ((ks.map fun k => (varBody k, (t k).data)).foldl
        (fun result nv =>
          match varToToken nv.1 with
          | some tokenKey => Function.update result tokenKey (some (String.mk nv.2))
          | none => result) acc) k0 =
        if k0 ∈ ks then some (t k0) else acc k0 := by
  intro ks
  induction ks with
  | nil => intro acc k0; simp
  | cons k ks ih =>
    intro acc k0
    simp only [List.map_cons, List.foldl_cons, varToToken_varBody k]
    rw [ih]
    by_cases hk : k0 ∈ ks
    · simp [hk, List.mem_cons]
    · by_cases he : k0 = k
      · subst he
        simp [hk, Function.update]
      · simp [hk, he, Function.update]

end FastSlides

namespace FastSlides

set_option maxRecDepth 100000 in
set_option maxHeartbeats 1000000 in
/-- C9 counterexample: the round trip is not the identity on all records.
With `slideBg = "a;b"`, serialization emits `--slide-bg: a;b;` and the lazy
group of `--([\w-]+)\s*:\s*(.+?)\s*;` stops at the first `;`, so parsing
recovers `"a"`. -/
theorem c9_roundtrip_counterexample :
    parseCssToTokens
        (tokensToCss fun k => if k = TokenKey.slideBg then "a;b" else "x")
        TokenKey.slideBg = some "a" ∧
    parseCssToTokens
        (tokensToCss fun k => if k = TokenKey.slideBg then "a;b" else "x")
        TokenKey.slideBg ≠
      some ((fun k => if k = TokenKey.slideBg then "a;b" else "x")
        TokenKey.slideBg) := by
  constructor
  · decide
  · decide

/-- C9 (amended): the token-CSS mapping is round-trip safe on every record
whose field values are nonempty, contain no `;` and no line terminator, and
carry no leading or trailing whitespace (all stock values qualify):
`parseCssToTokens (tokensToCss t) = t` on every field.  The provisos are
forced by the regex: its lazy value group stops at the first `;`, `.`
cannot cross a line break, and `\s*` on both sides of the value strips edge
whitespace. -/
theorem c9_token_css_roundtrip (t : TokenRecord)
    (hgood : ∀ k : TokenKey, GoodTokenValue (t k)) (k : TokenKey) :
    parseCssToTokens (tokensToCss t) k = some (t k) := by
  have hdata : (tokensToCss t).data =
      ([':', 'r', 'o', 'o', 't', ' ', '\x7b', '\n'] : List Char) ++
        (cssLinesData t TOKEN_KEYS ++ '\n' :: "\x7d\n".data) := by
    unfold tokensToCss
    rw [String.data_append, String.data_append, cssLines_eq t TOKEN_KEYS]
    simp
  unfold parseCssToTokens
  rw [hdata, findMatches_skipAll _ (by decide),
    scan_cssLines t TOKEN_KEYS _ (fun k _ => hgood k),
    show findMatches "\x7d\n".data = [] from rfl, List.append_nil,
    parse_fold t TOKEN_KEYS _ k, if_pos (tokenKey_complete k)]

/-- Witness for C9 (amended) at the constant record `"#fff"`: parsing the
serialized CSS recovers the accent field. -/
theorem c9_token_css_roundtrip_witness :
    parseCssToTokens (tokensToCss fun _ => "#fff") TokenKey.slideAccent =
      some "#fff" :=
  c9_token_css_roundtrip (fun _ => "#fff")
    (fun _ => show GoodTokenValue "#fff" from
      ⟨by decide, by decide, by decide, by decide⟩)
    TokenKey.slideAccent

end FastSlides
